import Mathlib

/-!
Verification of the cG(q) ODE solver, basis-evaluation, quadrature,
error-estimator grid construction and NS-QoI locator of this repository.

The Python source is shallowly embedded over exact rationals `ℚ`.
Machine-float rounding is not modelled: every claim here concerns the
exact-arithmetic content of the algorithms.  Python run-time failures
(IndexError on an out-of-range index, NameError on a variable left unbound
by a loop that found nothing, LinAlgError from `np.linalg.solve` on a
singular matrix) are modelled by `Option`, `none` standing for the raised
exception.  The external collaborator `np.polynomial.legendre.leggauss` is
not part of this repository; functions that consume its node/weight pairs
take the pair list as an explicit `rule` parameter.
-/

namespace ErrEst

open Polynomial

/-- `np.linspace a b num` as a function of the index `k`:
`num` equally spaced points from `a` to `b` inclusive, step `(b-a)/(num-1)`.
(For `num = 1` numpy returns the single point `a`; in `ℚ` the division by
zero makes the step `0`, which agrees.) -/
def lin_space (a b : ℚ) (num : ℕ) (k : ℕ) : ℚ :=
  a + (k : ℚ) * ((b - a) / ((num : ℚ) - 1))

/-- `Lagr initial final degree j x` (source `basis_functions.Lagr`):
value at `x` of the `j`-th Lagrange trial basis function on the
`degree+1` equally spaced nodes of `[initial, final]`, computed by the
product formula of the source. -/
def Lagr (initial final : ℚ) (degree j : ℕ) (x : ℚ) : ℚ :=
  ∏ k ∈ (Finset.range (degree + 1)).erase j,
    (x - lin_space initial final (degree + 1) k) /
      (lin_space initial final (degree + 1) j - lin_space initial final (degree + 1) k)

/-- `dLagr initial final degree j x` (source `basis_functions.dLagr`):
the source's analytic sum-of-products formula for the derivative of the
`j`-th Lagrange trial basis function.  The source's outer loop runs over
all `m` but only accumulates when `m ≠ j`, so the sum ranges over
`(range (degree+1)).erase j`. -/
def dLagr (initial final : ℚ) (degree j : ℕ) (x : ℚ) : ℚ :=
  ∑ m ∈ (Finset.range (degree + 1)).erase j,
    (1 / (lin_space initial final (degree + 1) j - lin_space initial final (degree + 1) m)) *
      ∏ k ∈ ((Finset.range (degree + 1)).erase j).erase m,
        (x - lin_space initial final (degree + 1) k) /
          (lin_space initial final (degree + 1) j - lin_space initial final (degree + 1) k)

/-- `TestLagr initial final degree j x` (source `basis_functions.TestLagr`):
Lagrange test basis on `degree` equally spaced nodes; the constant `1`
when `degree ≤ 1` (the source only enters its product loop for
`degree > 1`). -/
def TestLagr (initial final : ℚ) (degree j : ℕ) (x : ℚ) : ℚ :=
  if 1 < degree then
    ∏ k ∈ (Finset.range degree).erase j,
      (x - lin_space initial final degree k) /
        (lin_space initial final degree j - lin_space initial final degree k)
  else 1

/-- `GaussQuad initial final rule expression` (source `solvers.GaussQuad`):
affinely maps the reference node/weight pairs `rule` (obtained in the
source from the external `leggauss`) from `[-1,1]` to `[initial,final]`,
scales the weights by the half-length, and sums `weight · f(mapped node)`. -/
def GaussQuad (initial final : ℚ) (rule : List (ℚ × ℚ)) (expression : ℚ → ℚ) : ℚ :=
  (rule.map (fun pw =>
    ((final - initial) / 2) * pw.2 *
      expression (((final - initial) / 2) * pw.1 + (initial + final) / 2))).sum

/-- The subintervals `[t[i], t[i+1])` of the mesh whose half-open test
`t[i] ≤ x < t[i+1]` succeeds; the source's `i`-loop accumulates over
exactly these (it has no `break`).  Both loop reads `t[i]`, `t[i+1]` are
in range by the loop bound, so only the `Y` reads of the inner loop can
raise: the largest index read on subinterval `i` is `Y[q·i+q]`, so the
loop body completes without IndexError exactly when `q·i+q < len Y` for
every matching `i`; its result is then the accumulated double sum
(Python raises at the first out-of-range read, producing no value, which
`none` models). -/
def matchingIdx (t : List ℚ) (x : ℚ) : Finset ℕ :=
  (Finset.range (t.length - 1)).filter (fun i => t.getD i 0 ≤ x ∧ x < t.getD (i + 1) 0)

/-- `evalfunc Y t q x` (source `basis_functions.evalfunc`): piecewise
degree-`q` evaluation of the nodal vector `Y` on mesh `t` at `x`.
The source first tests `x == t[-1]` (IndexError on an empty mesh, hence
`none`), returning `Y[-1]` directly in that case; otherwise it scans all
subintervals with the half-open test and accumulates, starting from `0`. -/
def evalfunc (Y t : List ℚ) (q : ℕ) (x : ℚ) : Option ℚ :=
  match t.getLast? with
  | none => none
  | some tl =>
    if x = tl then Y.getLast?
    else
      if ∀ i ∈ matchingIdx t x, q * i + q < Y.length then
        some (∑ i ∈ matchingIdx t x,
          ∑ j ∈ Finset.range (q + 1), Y.getD (q * i + j) 0 *
            Lagr (t.getD i 0) (t.getD (i + 1) 0) q j x)
      else none

/-- `evalderiv Y t q x` (source `basis_functions.evalderiv`): derivative of
the piecewise interpolation.  Identical loop with `dLagr`, but with NO
special case for `x == t[-1]`: the value is whatever the accumulating loop
produces (the initial `0` when no subinterval matches). -/
def evalderiv (Y t : List ℚ) (q : ℕ) (x : ℚ) : Option ℚ :=
  if ∀ i ∈ matchingIdx t x, q * i + q < Y.length then
    some (∑ i ∈ matchingIdx t x,
      ∑ j ∈ Finset.range (q + 1), Y.getD (q * i + j) 0 *
        dLagr (t.getD i 0) (t.getD (i + 1) 0) q j x)
  else none

/-- `np.linalg.solve A b`: the unique solution of `A·s = b` when `A` is
nonsingular (written via Cramer `adjugate A ·ᵥ b / det A`), LinAlgError
(`none`) when `A` is singular. -/
def npSolve {q : ℕ} (A : Matrix (Fin q) (Fin q) ℚ) (b : Fin q → ℚ) :
    Option (Fin q → ℚ) :=
  if A.det = 0 then none else some (fun i => A.adjugate.mulVec b i / A.det)

/-- Entry `(j, i)` of the source's local cG(q) matrix `a` on subinterval
`[initial, final]`:
`GaussQuad` of `TestLagr_j · (dLagr_i − F·Lagr_i)` (source `solve_lin`,
assembly loop).  `rule` is the `leggauss(5q)` node/weight list. -/
def locMat (rule : List (ℚ × ℚ)) (F : ℚ → ℚ) (initial final : ℚ) (q : ℕ)
    (j : Fin q) (i : Fin (q + 1)) : ℚ :=
  GaussQuad initial final rule
    (fun x => TestLagr initial final q j x *
      (dLagr initial final q i x - F x * Lagr initial final q i x))

/-- One subinterval step of `solve_lin`: drop the first column of `a` to
get `A`, move it scaled by the already known value `ylast` to the
right-hand side `b = -ylast·a[:,0]`, and solve `A s = b`; the `q` solved
values are written after the known ones. -/
def solveStep (rule : List (ℚ × ℚ)) (F : ℚ → ℚ) (q : ℕ)
    (initial final ylast : ℚ) : Option (List ℚ) :=
  (npSolve (Matrix.of fun j i => locMat rule F initial final q j i.succ)
      (fun j => -ylast * locMat rule F initial final q j 0)).map List.ofFn

/-- The subinterval loop of `solve_lin` over the nodes `a :: rest`,
carrying the last already computed nodal value `ylast = y[n·q]` (always
the final entry of the values produced so far). -/
def solveLinAux (rule : List (ℚ × ℚ)) (F : ℚ → ℚ) (q : ℕ) :
    ℚ → ℚ → List ℚ → Option (List ℚ)
  | _, _, [] => some []
  | ylast, a, b :: rest =>
    match solveStep rule F q a b ylast with
    | none => none
    | some s =>
      match solveLinAux rule F q (s.getLastD ylast) b rest with
      | none => none
      | some tail => some (s ++ tail)

/-- `solve_lin y0 F t q` (source `solvers.solve_lin`): cG(q) solver for
`y' = F(x)·y`.  Initializes the nodal vector with `y[0] = y0` and, per
subinterval, assembles the local matrix and solves for the `q` new nodal
values; iteration `n` writes exactly the global indices
`n·q+1 … (n+1)·q`, so the result is `y0` followed by the per-subinterval
blocks.  `rule` stands for the external `leggauss(5·q)` pairs; an empty
mesh raises (the source indexes `t`), a singular local system propagates
LinAlgError: both are `none`. -/
def solve_lin (rule : List (ℚ × ℚ)) (y0 : ℚ) (F : ℚ → ℚ) (t : List ℚ)
    (q : ℕ) : Option (List ℚ) :=
  match t with
  | [] => none
  | a :: rest => (solveLinAux rule F q y0 a rest).map (fun l => y0 :: l)

/-- Grid-construction part of `get_err_lin` (source
`NSQoI_and_error_functions.get_err_lin`, the block building `t`): if the
final nodes of the forward mesh `ty` and the adjoint mesh `tphi`
coincide, `t = ty`; otherwise the loop truncates `ty` just before the
first node exceeding `tphi[-1]` (so the kept nodes are exactly the
leading ones that are `≤ tphi[-1]`) and appends `tphi[-1]`.  When no node
of `ty` exceeds `tphi[-1]` the loop assigns nothing and the subsequent
use of `t` raises NameError (`none`); an empty mesh raises IndexError at
`ty[-1]`/`tphi[-1]` (`none`). -/
def get_err_lin_grid (ty tphi : List ℚ) : Option (List ℚ) :=
  match ty.getLast?, tphi.getLast? with
  | some a, some c =>
    if a = c then some ty
    else if ty.any (fun v => decide (c < v)) then
      some (ty.takeWhile (fun v => decide (v ≤ c)) ++ [c])
    else none
  | _, _ => none

/-- Python indexing `l[k]` for a possibly negative `k`: a negative index
wraps once from the end; out of range raises (`none`). -/
def pyIdx (l : List ℚ) (k : ℤ) : Option ℚ :=
  if 0 ≤ k then l[k.toNat]?
  else if 0 ≤ (l.length : ℤ) + k then l[((l.length : ℤ) + k).toNat]?
  else none

/-- Python slicing `l[0:k]`: a negative stop counts from the end, and the
result is clamped to the available elements (never raises). -/
def pyTake (l : List ℚ) (k : ℤ) : List ℚ :=
  if 0 ≤ k then l.take k.toNat else l.take ((l.length : ℤ) + k).toNat

/-- The scan loop of `window_numtime`: first `i` (starting at the given
index, `fuel` iterations remaining) whose straddle test
`(Y[q·i] > target ∧ Y[q·i+1] < target) ∨ (Y[q·i] < target ∧ Y[q·i+1] > target)`
holds.  `none` when the test itself reads `Y` out of range (IndexError)
or the loop exhausts without a hit (every bracketing variable is then
unbound and the code after the loop raises NameError). -/
def wnFind (Y : List ℚ) (q : ℕ) (target : ℚ) : ℕ → ℕ → Option ℕ
  | _, 0 => none
  | i, fuel + 1 =>
    match Y[q * i]?, Y[q * i + 1]? with
    | some u, some v =>
      if (target < u ∧ v < target) ∨ (u < target ∧ target < v) then some i
      else wnFind Y q target (i + 1) fuel
    | _, _ => none

/-- The NS-QoI context returned by `window_numtime`: nodal-value prefix
slices, node indices (Python ints, so they may be negative), node times,
and the interpolated crossing time. -/
structure NSQoICtx where
  YL : List ℚ
  Y1 : List ℚ
  Y2 : List ℚ
  YR : List ℚ
  NL : ℤ
  N1 : ℤ
  N2 : ℤ
  NR : ℤ
  tL : ℚ
  t1 : ℚ
  t2 : ℚ
  tR : ℚ
  num_time : ℚ
  deriving DecidableEq, Repr

/-- `window_numtime Y t q target` (source
`NSQoI_and_error_functions.window_numtime`): scans the subintervals for
the first straddle of `target`, then records the bracketing context and
the interpolated crossing time
`num_time = s·t2 + (1−s)·t1`, `s = (target − Y1[-1])/(Y2[-1] − Y1[-1])`.
The source guards nothing: a missing crossing leaves the variables
unbound (NameError), `t[i+2]` can be out of range (IndexError), `t[i-1]`
silently wraps to the last node when `i = 0`, and the slice reads use
Python slice clamping — all reproduced here, crashes as `none`.  (With
numpy floats a zero denominator in `s` yields inf/nan rather than an
exception; over `ℚ` division by zero yields `0`: either way a garbage
`num_time`, not an error result.) -/
def window_numtime (Y t : List ℚ) (q : ℕ) (target : ℚ) :
    Option NSQoICtx := do
  let i ← wnFind Y q target 0 (t.length - 1)
  let t1 ← pyIdx t i
  let t2 ← pyIdx t ((i : ℤ) + 1)
  let tL ← pyIdx t ((i : ℤ) - 1)
  let tR ← pyIdx t ((i : ℤ) + 2)
  let Y1 := pyTake Y ((q : ℤ) * i + 1)
  let Y2 := pyTake Y ((q : ℤ) * i + q + 1)
  let YL := pyTake Y ((q : ℤ) * i - q + 1)
  let YR := pyTake Y ((q : ℤ) * i + 2 * q + 1)
  let y1l ← Y1.getLast?
  let y2l ← Y2.getLast?
  let s := (target - y1l) / (y2l - y1l)
  pure ⟨YL, Y1, Y2, YR, (i : ℤ) - 1, i, (i : ℤ) + 1, (i : ℤ) + 2,
    tL, t1, t2, tR, s * t2 + (1 - s) * t1⟩

/-- Modelled from the spec (§4.4 step 1), for comparison with the code:
the reconciled grid as the spec words it — the forward mesh itself when
the final nodes agree, otherwise the longest prefix of the forward mesh
whose nodes are all LESS THAN the adjoint final node, with that node
appended exactly. -/
def reconciledGridSpec (ty tphi : List ℚ) : List ℚ :=
  if ty.getLastD 0 = tphi.getLastD 0 then ty
  else ty.takeWhile (fun v => decide (v < tphi.getLastD 0)) ++ [tphi.getLastD 0]

/-- Termwise antiderivative of a polynomial (each monomial `c*X^k`
becomes `c/(k+1)*X^(k+1)`); `derivative_integPoly` below certifies it. -/
noncomputable def integPoly (P : Polynomial ℚ) : Polynomial ℚ :=
  P.sum fun k a => Polynomial.C (a / (k + 1)) * Polynomial.X ^ (k + 1)

/-- The exact analytic integral of a polynomial over `[a, b]`: the
antiderivative evaluated at the endpoints.  `exactIntegral_deriv` is the
fundamental theorem of calculus for this algebraic definition. -/
noncomputable def exactIntegral (a b : ℚ) (P : Polynomial ℚ) : ℚ :=
  (integPoly P).eval b - (integPoly P).eval a

/-- Applying a reference node/weight rule to an integrand on `[-1,1]`:
`sum of w*f(p)`.  Used to state the defining exactness property of the
external `leggauss` pairs. -/
def ruleSum (rule : List (ℚ × ℚ)) (f : ℚ → ℚ) : ℚ :=
  (rule.map (fun pw => pw.2 * f pw.1)).sum

/-- `(range 2).erase 1 |>.erase 0` is empty: helper for evaluating the
degree-1 basis formulas on concrete inputs. -/
lemma finRange2Erase10 : ((Finset.range 2).erase 1).erase 0 = (∅ : Finset ℕ) := by decide

/-- `(range 2).erase 0 |>.erase 1` is empty. -/
lemma finRange2Erase01 : ((Finset.range 2).erase 0).erase 1 = (∅ : Finset ℕ) := by decide

/-- `(range 2).erase 0 = {1}`. -/
lemma finRange2Erase0 : (Finset.range 2).erase 0 = ({1} : Finset ℕ) := by decide

/-- `(range 2).erase 1 = {0}`. -/
lemma finRange2Erase1 : (Finset.range 2).erase 1 = ({0} : Finset ℕ) := by decide

/-- Each successful `solveStep` produces exactly `q` new nodal values. -/
lemma solveStep_length {rule : List (ℚ × ℚ)} {F : ℚ → ℚ} {q : ℕ}
    {a b ylast : ℚ} {s : List ℚ} (h : solveStep rule F q a b ylast = some s) :
    s.length = q := by
  unfold solveStep at h
  cases hnp : npSolve (Matrix.of fun j i => locMat rule F a b q j i.succ)
      (fun j => -ylast * locMat rule F a b q j 0) with
  | none => rw [hnp] at h; simp at h
  | some v => rw [hnp] at h; simp at h; simp [← h]

/-- A successful run of the subinterval loop over `rest` produces exactly
`rest.length · q` nodal values beyond the initial one. -/
lemma solveLinAux_length {rule : List (ℚ × ℚ)} {F : ℚ → ℚ} {q : ℕ} :
    ∀ {rest : List ℚ} {ylast a : ℚ} {l : List ℚ},
      solveLinAux rule F q ylast a rest = some l → l.length = rest.length * q
  | [], _, _, _, h => by
    simp only [solveLinAux, Option.some.injEq] at h
    simp [← h]
  | b :: rest, ylast, a, l, h => by
    rw [solveLinAux] at h
    cases hs : solveStep rule F q a b ylast with
    | none => rw [hs] at h; exact absurd h (by simp)
    | some s =>
      rw [hs] at h
      dsimp only at h
      cases htail : solveLinAux rule F q (s.getLastD ylast) b rest with
      | none => rw [htail] at h; exact absurd h (by simp)
      | some tail =>
        rw [htail] at h
        have h1 := solveStep_length hs
        have h2 := solveLinAux_length htail
        simp only [Option.some.injEq] at h
        subst h
        simp [h1, h2, List.length_append, Nat.succ_mul, Nat.add_comm]

/-- Concrete run of the solver used by the witnesses: degree 1 on mesh
`[0,1]` with coefficient `F = 0`, initial value `7` and a one-point
reference rule. -/
lemma solve_lin_example :
    solve_lin [((0 : ℚ), (2 : ℚ))] 7 (fun _ => 0) [0, 1] 1 = some [7, 7] := by
  norm_num [solve_lin, solveLinAux, solveStep, npSolve, locMat, GaussQuad, TestLagr, dLagr, Lagr,
    lin_space, Matrix.det_fin_one, Matrix.adjugate_fin_one, Finset.sum_range_succ, Option.bind,
    finRange2Erase10, finRange2Erase01, finRange2Erase0, finRange2Erase1]

/-- A nonempty list's `getLast?` is its `getLastD`. -/
lemma getLast?_of_ne_nil {l : List ℚ} (h : l ≠ []) :
    l.getLast? = some (l.getLastD 0) := by
  rw [List.getLast?_eq_getLast_of_ne_nil h, List.getLastD_eq_getLast?,
    List.getLast?_eq_getLast_of_ne_nil h]
  rfl

/-- The element named by `getLast?` belongs to the list. -/
lemma mem_of_getLast?_eq {l : List ℚ} {a : ℚ} (h : l.getLast? = some a) :
    a ∈ l := by
  obtain ⟨hne, hx⟩ := @List.mem_getLast?_eq_getLast ℚ l a h
  exact hx ▸ List.getLast_mem hne

/-- `takeWhile` only looks at the truth of the predicate on the scanned
elements. -/
lemma takeWhile_congr_of_mem {p r : ℚ → Bool} :
    ∀ {l : List ℚ}, (∀ v ∈ l, p v = r v) → l.takeWhile p = l.takeWhile r
  | [], _ => rfl
  | x :: xs, h => by
    have hx := h x (List.mem_cons_self x xs)
    have hrec : xs.takeWhile p = xs.takeWhile r :=
      takeWhile_congr_of_mem (fun v hv => h v (List.mem_cons_of_mem x hv))
    simp only [List.takeWhile_cons, hx]
    cases r x with
    | false => rfl
    | true => rw [hrec]

/-- In-range `getElem?` returns the `getD` value. -/
lemma getElem?_eq_some_getD {l : List ℚ} {n : ℕ} (h : n < l.length) :
    l[n]? = some (l.getD n 0) := by
  rw [List.getD_eq_getElem?_getD, List.getElem?_eq_getElem h]
  rfl

/-- Strict monotonicity of a strictly increasing mesh, in `getD` form. -/
lemma mesh_getD_lt {t : List ℚ}
    (hc : List.Chain' (fun a b : ℚ => a < b) t) {i j : ℕ}
    (hij : i < j) (hj : j < t.length) : t.getD i 0 < t.getD j 0 := by
  have hp := List.chain'_iff_pairwise.mp hc
  have hi : i < t.length := lt_trans hij hj
  have hg := List.pairwise_iff_get.mp hp ⟨i, hi⟩ ⟨j, hj⟩ hij
  rw [List.getD_eq_getElem?_getD, List.getD_eq_getElem?_getD,
    List.getElem?_eq_getElem hi, List.getElem?_eq_getElem hj]
  simpa [List.get_eq_getElem] using hg

/-- The `getLastD` of a nonempty list is its `getD` at the last index. -/
lemma getLastD_eq_getD_length_sub_one {t : List ℚ} (_h : t ≠ []) :
    t.getLastD 0 = t.getD (t.length - 1) 0 := by
  rw [List.getLastD_eq_getLast?, List.getLast?_eq_getElem?,
    List.getD_eq_getElem?_getD]

/-- `solve_lin` output length, independent of the claim theorems. -/
lemma solve_lin_length {rule : List (ℚ × ℚ)} {F : ℚ → ℚ} {t : List ℚ}
    {q : ℕ} {y0 : ℚ} {Y : List ℚ} (h : solve_lin rule y0 F t q = some Y) :
    Y.length = (t.length - 1) * q + 1 := by
  match t, h with
  | a :: rest, h =>
    simp only [solve_lin, Option.map_eq_some'] at h
    obtain ⟨l, hl, rfl⟩ := h
    simp [solveLinAux_length hl]

/-- The first node of `np.linspace a b (q+1)` is `a`. -/
lemma lin_space_zero (a b : ℚ) (q : ℕ) : lin_space a b (q + 1) 0 = a := by
  simp [lin_space]

/-- The `q+1` equally spaced trial nodes are pairwise distinct when the
subinterval is nondegenerate and the degree positive. -/
lemma lin_space_inj {a b : ℚ} (hab : a ≠ b) {q : ℕ} (hq : 1 ≤ q) {k m : ℕ}
    (hne : k ≠ m) : lin_space a b (q + 1) k ≠ lin_space a b (q + 1) m := by
  unfold lin_space
  intro h
  have hq0 : ((q : ℚ)) ≠ 0 := Nat.cast_ne_zero.mpr (by omega)
  have hba : b - a ≠ 0 := sub_ne_zero.mpr (Ne.symm hab)
  have hcast : (((q + 1 : ℕ)) : ℚ) - 1 = (q : ℚ) := by push_cast; ring
  rw [hcast] at h
  have hstep : (b - a) / (q : ℚ) ≠ 0 := div_ne_zero hba hq0
  have hkm : (k : ℚ) * ((b - a) / (q : ℚ)) = (m : ℚ) * ((b - a) / (q : ℚ)) := by
    exact add_left_cancel h
  have : (k : ℚ) = (m : ℚ) := mul_right_cancel₀ hstep hkm
  exact hne (Nat.cast_injective this)

/-- Cardinal property of the trial basis at the subinterval's left
endpoint (the `0`-th trial node): `Lagr` is `1` there for `j = 0` and `0`
for every other `j`. -/
lemma Lagr_node_zero {a b : ℚ} (hab : a ≠ b) {q : ℕ} (hq : 1 ≤ q) (j : ℕ) :
    Lagr a b q j a = if j = 0 then 1 else 0 := by
  unfold Lagr
  by_cases hj : j = 0
  · subst hj
    rw [if_pos rfl]
    apply Finset.prod_eq_one
    intro k hk
    rw [Finset.mem_erase] at hk
    have hk0 : lin_space a b (q + 1) 0 ≠ lin_space a b (q + 1) k :=
      lin_space_inj hab hq (Ne.symm hk.1)
    rw [lin_space_zero] at hk0
    conv_lhs => rw [show lin_space a b (q + 1) 0 = a from lin_space_zero a b q]
    exact div_self (sub_ne_zero.mpr hk0)
  · rw [if_neg hj]
    have h0mem : (0 : ℕ) ∈ (Finset.range (q + 1)).erase j := by
      rw [Finset.mem_erase, Finset.mem_range]
      exact ⟨Ne.symm hj, by omega⟩
    apply Finset.prod_eq_zero h0mem
    rw [lin_space_zero]
    simp

/-- Weak monotonicity of a strictly increasing mesh, in `getD` form. -/
lemma mesh_getD_le {t : List ℚ}
    (hc : List.Chain' (fun a b : ℚ => a < b) t) {i j : ℕ}
    (hij : i ≤ j) (hj : j < t.length) : t.getD i 0 ≤ t.getD j 0 := by
  rcases Nat.eq_or_lt_of_le hij with h | h
  · rw [h]
  · exact (mesh_getD_lt hc h hj).le

/-- On a strictly increasing mesh, the only subinterval whose half-open
test contains the node `t[i]` (for `i` not the last node) is subinterval
`i` itself. -/
lemma matchingIdx_node {t : List ℚ}
    (hc : List.Chain' (fun a b : ℚ => a < b) t) {i : ℕ}
    (hi : i + 1 < t.length) : matchingIdx t (t.getD i 0) = {i} := by
  ext m
  rw [matchingIdx, Finset.mem_filter, Finset.mem_range, Finset.mem_singleton]
  constructor
  · rintro ⟨hm, hle, hlt⟩
    by_contra hne
    rcases Nat.lt_or_ge m i with h1 | h1
    · have h2 : t.getD (m + 1) 0 ≤ t.getD i 0 :=
        mesh_getD_le hc (by omega) (by omega)
      exact absurd hlt (not_lt.mpr h2)
    · have h2 : i < m := by omega
      have h3 : t.getD i 0 < t.getD m 0 := mesh_getD_lt hc h2 (by omega)
      exact absurd hle (not_le.mpr h3)
  · rintro rfl
    exact ⟨by omega, le_refl _, mesh_getD_lt hc (by omega) hi⟩

/-- Product rule for a `Finset` product of polynomials. -/
lemma derivative_finset_prod (s : Finset ℕ) (f : ℕ → Polynomial ℚ) :
    Polynomial.derivative (∏ i ∈ s, f i) =
      ∑ i ∈ s, (∏ j ∈ s.erase i, f j) * Polynomial.derivative (f i) := by
  induction s using Finset.induction_on with
  | empty => simp
  | insert hnotmem ih =>
    rename_i a s
    rw [Finset.prod_insert hnotmem, Polynomial.derivative_mul, ih,
      Finset.sum_insert hnotmem, Finset.erase_insert hnotmem, Finset.mul_sum]
    congr 1
    · rw [mul_comm]
    · refine Finset.sum_congr rfl (fun i hi => ?_)
      have hai : a ≠ i := fun h => hnotmem (h ▸ hi)
      rw [Finset.erase_insert_of_ne hai,
        Finset.prod_insert (fun h => hnotmem (Finset.mem_of_mem_erase h))]
      ring

/-- The source's `Lagr` product formula is the evaluation of the Lagrange
basis polynomial on the trial nodes. -/
lemma Lagr_eq_eval_basis (a b : ℚ) (q : ℕ) (j : ℕ) (x : ℚ) :
    Lagr a b q j x =
      Polynomial.eval x
        (Lagrange.basis (Finset.range (q + 1)) (lin_space a b (q + 1)) j) := by
  unfold Lagr Lagrange.basis
  rw [Polynomial.eval_prod]
  refine Finset.prod_congr rfl (fun k _ => ?_)
  unfold Lagrange.basisDivisor
  rw [Polynomial.eval_mul, Polynomial.eval_C, Polynomial.eval_sub,
    Polynomial.eval_X, Polynomial.eval_C, div_eq_inv_mul]

/-- The source's `dLagr` sum-of-products formula is the evaluation of the
derivative of the Lagrange basis polynomial. -/
lemma dLagr_eq_eval_deriv (a b : ℚ) (q : ℕ) (j : ℕ) (x : ℚ) :
    dLagr a b q j x =
      Polynomial.eval x
        (Polynomial.derivative
          (Lagrange.basis (Finset.range (q + 1)) (lin_space a b (q + 1)) j)) := by
  unfold Lagrange.basis
  rw [derivative_finset_prod, Polynomial.eval_finset_sum]
  unfold dLagr
  refine Finset.sum_congr rfl (fun m hm => ?_)
  have hd : Polynomial.derivative
      (Lagrange.basisDivisor (lin_space a b (q + 1) j) (lin_space a b (q + 1) m)) =
      Polynomial.C ((lin_space a b (q + 1) j - lin_space a b (q + 1) m)⁻¹) := by
    unfold Lagrange.basisDivisor
    rw [Polynomial.derivative_C_mul, Polynomial.derivative_sub,
      Polynomial.derivative_X, Polynomial.derivative_C, sub_zero, mul_one]
  rw [Polynomial.eval_mul, hd, Polynomial.eval_C, Polynomial.eval_prod]
  rw [mul_comm, one_div]
  congr 1
  refine Finset.prod_congr rfl (fun k _ => ?_)
  unfold Lagrange.basisDivisor
  rw [Polynomial.eval_mul, Polynomial.eval_C, Polynomial.eval_sub,
    Polynomial.eval_X, Polynomial.eval_C, div_eq_inv_mul]

/-- Partition of unity, differentiated: the trial basis derivatives sum
to zero at every point (the basis polynomials sum to the constant `1`). -/
lemma sum_dLagr_eq_zero {a b : ℚ} (hab : a ≠ b) (q : ℕ) (x : ℚ) :
    ∑ j ∈ Finset.range (q + 1), dLagr a b q j x = 0 := by
  have hinj : Set.InjOn (lin_space a b (q + 1)) (Finset.range (q + 1)) := by
    rcases q with _ | q'
    · intro k hk m hm _
      simp only [Finset.coe_range, Set.mem_Iio] at hk hm
      omega
    · intro k hk m hm h
      by_contra hne
      exact lin_space_inj hab (by omega) hne h
  have hsum := Lagrange.sum_basis hinj ⟨0, by simp⟩
  calc ∑ j ∈ Finset.range (q + 1), dLagr a b q j x
      = ∑ j ∈ Finset.range (q + 1),
          Polynomial.eval x (Polynomial.derivative
            (Lagrange.basis (Finset.range (q + 1)) (lin_space a b (q + 1)) j)) :=
        Finset.sum_congr rfl (fun j _ => dLagr_eq_eval_deriv a b q j x)
    _ = Polynomial.eval x (Polynomial.derivative
          (∑ j ∈ Finset.range (q + 1),
            Lagrange.basis (Finset.range (q + 1)) (lin_space a b (q + 1)) j)) := by
        rw [map_sum, Polynomial.eval_finset_sum]
    _ = Polynomial.eval x (Polynomial.derivative 1) := by rw [hsum]
    _ = 0 := by simp

/-- `GaussQuad` is additive in the integrand over finite index sums. -/
lemma GaussQuad_fin_sum {n : ℕ} (a b : ℚ) (rule : List (ℚ × ℚ))
    (f : Fin n → ℚ → ℚ) :
    ∑ i : Fin n, GaussQuad a b rule (f i) =
      GaussQuad a b rule (fun x => ∑ i : Fin n, f i x) := by
  unfold GaussQuad
  induction rule with
  | nil => simp
  | cons pw rest ih =>
    simp only [List.map_cons, List.sum_cons, Finset.sum_add_distrib, ih,
      Finset.mul_sum]

/-- `GaussQuad` of the zero integrand vanishes. -/
lemma GaussQuad_zero_fn (a b : ℚ) (rule : List (ℚ × ℚ)) :
    GaussQuad a b rule (fun _ => 0) = 0 := by
  unfold GaussQuad
  apply List.sum_eq_zero
  intro x hx
  rw [List.mem_map] at hx
  obtain ⟨pw, _, rfl⟩ := hx
  ring

/-- A successful `npSolve` call has a nonsingular matrix and its output
solves the linear system (Cramer). -/
lemma npSolve_sol {q : ℕ} {A : Matrix (Fin q) (Fin q) ℚ} {b s : Fin q → ℚ}
    (h : npSolve A b = some s) : A.det ≠ 0 ∧ A.mulVec s = b := by
  unfold npSolve at h
  by_cases hdet : A.det = 0
  · rw [if_pos hdet] at h
    exact absurd h (by simp)
  · rw [if_neg hdet] at h
    simp only [Option.some.injEq] at h
    refine ⟨hdet, ?_⟩
    subst h
    have hv : (fun i => A.adjugate.mulVec b i / A.det) =
        A.det⁻¹ • A.adjugate.mulVec b := by
      funext i
      simp [div_eq_inv_mul, Pi.smul_apply, smul_eq_mul]
    rw [hv, Matrix.mulVec_smul, Matrix.mulVec_mulVec, Matrix.mul_adjugate,
      Matrix.smul_mulVec_assoc, Matrix.one_mulVec, smul_smul,
      inv_mul_cancel₀ hdet, one_smul]

/-- A nonsingular system has at most one solution. -/
lemma npSolve_unique {q : ℕ} {A : Matrix (Fin q) (Fin q) ℚ}
    {b s u : Fin q → ℚ} (hdet : A.det ≠ 0)
    (h1 : A.mulVec s = b) (h2 : A.mulVec u = b) : s = u := by
  have h3 : A.adjugate.mulVec (A.mulVec s) = A.adjugate.mulVec (A.mulVec u) := by
    rw [h1, h2]
  rw [Matrix.mulVec_mulVec, Matrix.mulVec_mulVec, Matrix.adjugate_mul,
    Matrix.smul_mulVec_assoc, Matrix.smul_mulVec_assoc,
    Matrix.one_mulVec, Matrix.one_mulVec] at h3
  funext i
  have h4 := congrFun h3 i
  simp only [Pi.smul_apply, smul_eq_mul] at h4
  exact mul_left_cancel₀ hdet h4

/-- With the zero coefficient function the columns of the local cG(q)
matrix sum to zero in every row: pointwise at every quadrature node the
integrand is `TestLagr_j times (sum of basis derivatives) = 0`, so no property
of the quadrature rule is needed. -/
lemma locMat_row_sum_zero {rule : List (ℚ × ℚ)} {F : ℚ → ℚ}
    (hF : ∀ x, F x = 0) {a b : ℚ} (hab : a ≠ b) {q : ℕ} (j : Fin q) :
    ∑ i : Fin (q + 1), locMat rule F a b q j i = 0 := by
  unfold locMat
  rw [GaussQuad_fin_sum]
  have hz : (fun x => ∑ i : Fin (q + 1),
      TestLagr a b q j x * (dLagr a b q i x - F x * Lagr a b q i x)) =
      fun _ => (0 : ℚ) := by
    funext x
    simp only [hF, zero_mul, sub_zero]
    rw [← Finset.mul_sum]
    rw [Fin.sum_univ_eq_sum_range (fun i => dLagr a b q i x) (q + 1)]
    rw [sum_dLagr_eq_zero hab, mul_zero]
  rw [hz, GaussQuad_zero_fn]

/-- With the zero coefficient function, a successful local solve returns
the constant block: the constant vector satisfies the local system by the
row-sum identity, and the solution of the nonsingular system is unique. -/
lemma solveStep_const {rule : List (ℚ × ℚ)} {F : ℚ → ℚ}
    (hF : ∀ x, F x = 0) {q : ℕ} {a b y0 : ℚ} (hab : a ≠ b) {s : List ℚ}
    (h : solveStep rule F q a b y0 = some s) : s = List.replicate q y0 := by
  unfold solveStep at h
  cases hnp : npSolve (Matrix.of fun (j : Fin q) (i : Fin q) =>
      locMat rule F a b q j i.succ) (fun j => -y0 * locMat rule F a b q j 0) with
  | none => rw [hnp] at h; exact absurd h (by simp)
  | some v =>
    rw [hnp] at h
    simp only [Option.map_some', Option.some.injEq] at h
    obtain ⟨hdet, hsol⟩ := npSolve_sol hnp
    have hconst : (Matrix.of fun (j : Fin q) (i : Fin q) =>
        locMat rule F a b q j i.succ).mulVec
        (fun _ => y0) = (fun j => -y0 * locMat rule F a b q j 0) := by
      funext j
      simp only [Matrix.mulVec, Matrix.dotProduct, Matrix.of_apply]
      have hsum := @locMat_row_sum_zero rule F hF a b hab q j
      rw [Fin.sum_univ_succ] at hsum
      have h2 : ∑ i : Fin q, locMat rule F a b q j i.succ =
          -locMat rule F a b q j 0 := by linarith
      calc ∑ i : Fin q, locMat rule F a b q j i.succ * y0
          = (∑ i : Fin q, locMat rule F a b q j i.succ) * y0 :=
            (Finset.sum_mul _ _ _).symm
        _ = -locMat rule F a b q j 0 * y0 := by rw [h2]
        _ = -y0 * locMat rule F a b q j 0 := by ring
    have hv : v = fun _ => y0 := npSolve_unique hdet hsol hconst
    rw [← h, hv, List.ofFn_const]

/-- The last entry of a replicated block (with matching default). -/
lemma getLastD_replicate (n : ℕ) (c : ℚ) :
    (List.replicate n c).getLastD c = c := by
  induction n with
  | zero => rfl
  | succ m ih =>
    rw [List.replicate_succ]
    cases m with
    | zero => rfl
    | succ k =>
      rw [List.getLastD_cons]
      exact ih

/-- The subinterval loop preserves the constant solution: every produced
block is constant at the carried value `y0`. -/
lemma solveLinAux_const {rule : List (ℚ × ℚ)} {F : ℚ → ℚ}
    (hF : ∀ x, F x = 0) {q : ℕ} :
    ∀ {rest : List ℚ} {a y0 : ℚ} {l : List ℚ},
      List.Chain' (fun u v : ℚ => u < v) (a :: rest) →
      solveLinAux rule F q y0 a rest = some l →
      l = List.replicate (rest.length * q) y0
  | [], _, _, l, _, h => by
    simp only [solveLinAux, Option.some.injEq] at h
    simp [← h]
  | b :: rest, a, y0, l, hchain, h => by
    obtain ⟨hab, hchain'⟩ := List.chain'_cons.mp hchain
    rw [solveLinAux] at h
    cases hs : solveStep rule F q a b y0 with
    | none => rw [hs] at h; exact absurd h (by simp)
    | some s =>
      rw [hs] at h
      dsimp only at h
      have hsc := solveStep_const hF (ne_of_lt hab) hs
      subst hsc
      rw [getLastD_replicate] at h
      cases htail : solveLinAux rule F q y0 b rest with
      | none => rw [htail] at h; exact absurd h (by simp)
      | some tail =>
        rw [htail] at h
        simp only [Option.some.injEq] at h
        have htc := solveLinAux_const hF hchain' htail
        subst htc
        rw [← h, ← List.replicate_add]
        congr 1
        simp [Nat.succ_mul]
        omega

/-- `integPoly` on a monomial. -/
lemma integPoly_monomial (k : ℕ) (c : ℚ) :
    integPoly (Polynomial.monomial k c) =
      Polynomial.C (c / (k + 1)) * Polynomial.X ^ (k + 1) := by
  unfold integPoly
  rw [Polynomial.sum_monomial_index]
  simp

/-- `integPoly` is additive. -/
lemma integPoly_add (P Q : Polynomial ℚ) :
    integPoly (P + Q) = integPoly P + integPoly Q := by
  unfold integPoly
  rw [Polynomial.sum_add_index]
  · intro i
    simp
  · intro i x y
    rw [add_div, map_add, add_mul]

/-- `integPoly` commutes with constant factors. -/
lemma integPoly_C_mul (c : ℚ) (P : Polynomial ℚ) :
    integPoly (Polynomial.C c * P) = Polynomial.C c * integPoly P := by
  induction P using Polynomial.induction_on' with
  | h_add p q hp hq => rw [mul_add, integPoly_add, hp, hq, integPoly_add, mul_add]
  | h_monomial n x =>
    rw [Polynomial.C_mul_monomial, integPoly_monomial, integPoly_monomial,
      ← mul_assoc, ← Polynomial.C_mul, mul_div_assoc]

/-- `integPoly` really is an antiderivative. -/
lemma derivative_integPoly (P : Polynomial ℚ) :
    Polynomial.derivative (integPoly P) = P := by
  induction P using Polynomial.induction_on' with
  | h_add p q hp hq => rw [integPoly_add, Polynomial.derivative_add, hp, hq]
  | h_monomial n x =>
    rw [integPoly_monomial, Polynomial.derivative_C_mul, Polynomial.derivative_X_pow]
    rw [← mul_assoc, ← Polynomial.C_mul, Nat.add_sub_cancel]
    rw [Polynomial.C_mul_X_pow_eq_monomial]
    congr 1
    have hne : ((n : ℚ) + 1) ≠ 0 := by positivity
    push_cast
    field_simp

/-- Fundamental theorem of calculus, algebraically: the exact integral of
a derivative is the difference of endpoint values. -/
lemma exactIntegral_deriv (a b : ℚ) (Q : Polynomial ℚ) :
    exactIntegral a b (Polynomial.derivative Q) =
      Q.eval b - Q.eval a := by
  have hD : Polynomial.derivative (integPoly (Polynomial.derivative Q) - Q) = 0 := by
    rw [Polynomial.derivative_sub, derivative_integPoly, sub_self]
  have hC := Polynomial.eq_C_of_derivative_eq_zero hD
  unfold exactIntegral
  have hb := congrArg (Polynomial.eval b) hC
  have ha := congrArg (Polynomial.eval a) hC
  rw [Polynomial.eval_sub, Polynomial.eval_C] at hb ha
  linarith

/-- The exact integral scales with constant factors. -/
lemma exactIntegral_C_mul (a b c : ℚ) (P : Polynomial ℚ) :
    exactIntegral a b (Polynomial.C c * P) = c * exactIntegral a b P := by
  unfold exactIntegral
  simp only [integPoly_C_mul, Polynomial.eval_mul, Polynomial.eval_C]
  ring

/-- Exact integral of a monomial. -/
lemma exactIntegral_monomial (a b : ℚ) (k : ℕ) (c : ℚ) :
    exactIntegral a b (Polynomial.monomial k c) =
      c / (k + 1) * (b ^ (k + 1) - a ^ (k + 1)) := by
  unfold exactIntegral
  rw [integPoly_monomial]
  simp only [Polynomial.eval_mul, Polynomial.eval_C, Polynomial.eval_pow,
    Polynomial.eval_X]
  ring

/-- Exact integral of a power, `(b^(k+1) - a^(k+1))/(k+1)`. -/
lemma exactIntegral_X_pow (a b : ℚ) (k : ℕ) :
    exactIntegral a b (Polynomial.X ^ k) =
      (b ^ (k + 1) - a ^ (k + 1)) / (k + 1) := by
  rw [Polynomial.X_pow_eq_monomial, exactIntegral_monomial]
  ring

/-- `GaussQuad` is the reference rule applied to the affinely pulled-back
integrand, scaled by the interval half-length. -/
lemma GaussQuad_eq_ruleSum (a b : ℚ) (rule : List (ℚ × ℚ)) (f : ℚ → ℚ) :
    GaussQuad a b rule f =
      ((b - a) / 2) *
        ruleSum rule (fun x => f (((b - a) / 2) * x + (a + b) / 2)) := by
  unfold GaussQuad ruleSum
  induction rule with
  | nil => simp
  | cons pw rest ih =>
    simp only [List.map_cons, List.sum_cons, ih]
    ring

/-- A rule application is additive over finite sums of integrands. -/
lemma ruleSum_finset_sum (rule : List (ℚ × ℚ)) {s : Finset ℕ} (g : ℕ → ℚ → ℚ) :
    ruleSum rule (fun x => ∑ k ∈ s, g k x) = ∑ k ∈ s, ruleSum rule (g k) := by
  unfold ruleSum
  induction rule with
  | nil => simp
  | cons pw rest ih =>
    simp only [List.map_cons, List.sum_cons]
    rw [ih, Finset.mul_sum, ← Finset.sum_add_distrib]

/-- A rule application scales with constant factors. -/
lemma ruleSum_const_mul (rule : List (ℚ × ℚ)) (c : ℚ) (f : ℚ → ℚ) :
    ruleSum rule (fun x => c * f x) = c * ruleSum rule f := by
  unfold ruleSum
  induction rule with
  | nil => simp
  | cons pw rest ih =>
    simp only [List.map_cons, List.sum_cons, ih]
    ring

/-- A rule that integrates the monomials `x^k`, `k <= 2n-1`, exactly on
`[-1,1]` integrates every polynomial of degree `<= 2n-1` exactly there. -/
lemma ruleSum_exact_poly {rule : List (ℚ × ℚ)} {n : ℕ}
    (hex : ∀ k : ℕ, k ≤ 2 * n - 1 →
      ruleSum rule (fun x => x ^ k) = exactIntegral (-1) 1 (Polynomial.X ^ k))
    {P : Polynomial ℚ} (hP : P.natDegree ≤ 2 * n - 1) :
    ruleSum rule (fun x => P.eval x) = exactIntegral (-1) 1 P := by
  have hdecomp := Polynomial.as_sum_range' P (P.natDegree + 1) (Nat.lt_succ_self _)
  calc ruleSum rule (fun x => P.eval x)
      = ruleSum rule (fun x => ∑ k ∈ Finset.range (P.natDegree + 1),
          P.coeff k * x ^ k) := by
        congr 1
        funext x
        conv_lhs => rw [hdecomp]
        rw [Polynomial.eval_finset_sum]
        exact Finset.sum_congr rfl (fun k _ => by rw [Polynomial.eval_monomial])
    _ = ∑ k ∈ Finset.range (P.natDegree + 1),
          ruleSum rule (fun x => P.coeff k * x ^ k) :=
        ruleSum_finset_sum rule _
    _ = ∑ k ∈ Finset.range (P.natDegree + 1),
          exactIntegral (-1) 1 (Polynomial.monomial k (P.coeff k)) := by
        refine Finset.sum_congr rfl (fun k hk => ?_)
        rw [ruleSum_const_mul, hex k (by
          rw [Finset.mem_range] at hk
          omega)]
        rw [exactIntegral_X_pow, exactIntegral_monomial]
        ring
    _ = exactIntegral (-1) 1 P := by
        unfold exactIntegral
        conv_rhs => rw [hdecomp]
        rw [show integPoly (∑ i ∈ Finset.range (P.natDegree + 1),
          Polynomial.monomial i (P.coeff i)) = ∑ i ∈ Finset.range (P.natDegree + 1),
          integPoly (Polynomial.monomial i (P.coeff i)) from ?_]
        · rw [Polynomial.eval_finset_sum, Polynomial.eval_finset_sum,
            ← Finset.sum_sub_distrib]
        · induction (Finset.range (P.natDegree + 1)) using Finset.induction_on with
          | empty => simp [integPoly]
          | insert hnm ih => rename_i a s; rw [Finset.sum_insert hnm, integPoly_add, ih,
              Finset.sum_insert hnm]

/-- Change of variables: the exact integral over `[a,b]` equals the
half-length times the exact integral over `[-1,1]` of the affinely
composed polynomial. -/
lemma exactIntegral_affine_subst (a b : ℚ) (P : Polynomial ℚ) :
    ((b - a) / 2) * exactIntegral (-1) 1
      (P.comp (Polynomial.C ((b - a) / 2) * Polynomial.X +
        Polynomial.C ((a + b) / 2))) =
    exactIntegral a b P := by
  have hdR : Polynomial.derivative
      ((integPoly P).comp (Polynomial.C ((b - a) / 2) * Polynomial.X +
        Polynomial.C ((a + b) / 2))) =
      Polynomial.C ((b - a) / 2) *
        (P.comp (Polynomial.C ((b - a) / 2) * Polynomial.X +
          Polynomial.C ((a + b) / 2))) := by
    rw [Polynomial.derivative_comp, derivative_integPoly]
    congr 1
    rw [Polynomial.derivative_add, Polynomial.derivative_C_mul,
      Polynomial.derivative_X, Polynomial.derivative_C, mul_one, add_zero]
  have hFTC := exactIntegral_deriv (-1) 1
    ((integPoly P).comp (Polynomial.C ((b - a) / 2) * Polynomial.X +
      Polynomial.C ((a + b) / 2)))
  rw [hdR, exactIntegral_C_mul] at hFTC
  rw [hFTC, Polynomial.eval_comp, Polynomial.eval_comp]
  simp only [Polynomial.eval_add, Polynomial.eval_mul, Polynomial.eval_C,
    Polynomial.eval_X]
  have h1 : (b - a) / 2 * 1 + (a + b) / 2 = b := by ring
  have h2 : (b - a) / 2 * (-1) + (a + b) / 2 = a := by ring
  rw [h1, h2]
  rfl

/-- C1: on the §8 example — mesh `[0,1,2,3,4,5]`, degree `1`, trajectory
`[5,4,3,2,1,0,-1]`, `target = 3/2` — `window_numtime` finds the crossing
on the subinterval with endpoint values `2` and `1` (`t1 = 3`, `t2 = 4`,
visible in the returned context together with `Y1` ending in `2` and `Y2`
ending in `1`), computes `s = (3/2 − 2)/(1 − 2) = 1/2` and returns
`num_time = s·t2 + (1−s)·t1 = 7/2`, which lies strictly between `t1` and
`t2`. -/
theorem window_numtime_section8_example :
    window_numtime [5, 4, 3, 2, 1, 0, -1] [0, 1, 2, 3, 4, 5] 1 (3/2) =
      some ⟨[5, 4, 3], [5, 4, 3, 2], [5, 4, 3, 2, 1], [5, 4, 3, 2, 1, 0],
        2, 3, 4, 5, 2, 3, 4, 5,
        ((3/2 : ℚ) - 2) / (1 - 2) * 4 + (1 - ((3/2 : ℚ) - 2) / (1 - 2)) * 3⟩ ∧
    ((3/2 : ℚ) - 2) / (1 - 2) = 1/2 ∧
    ((3/2 : ℚ) - 2) / (1 - 2) * 4 + (1 - ((3/2 : ℚ) - 2) / (1 - 2)) * 3 = 7/2 ∧
    (3 : ℚ) < 7/2 ∧ (7/2 : ℚ) < 4 := by
  refine ⟨?_, by norm_num, by norm_num, by norm_num, by norm_num⟩
  norm_num [window_numtime, wnFind, pyIdx, pyTake, Option.bind, List.getLast?]
  simp
  norm_num

/-- C2 counterexample: for the strictly increasing meshes `ty = [0,1,2]`
and `tphi = [0,1]`, the reconciled grid built by `get_err_lin` is
`[0,1,1]` — the node equal to `tphi[-1]` is kept in the truncated part,
so the grid is NOT the all-less-than prefix `[0]` with `1` appended
(which would be `[0,1]`), and it is not strictly increasing (it has a
zero-length subinterval). -/
theorem get_err_lin_grid_duplicate_node :
    get_err_lin_grid [0, 1, 2] [0, 1] = some [0, 1, 1] ∧
    ([0, 1, 1] : List ℚ) ≠ [0, 1] ∧
    ¬ List.Chain' (fun a b : ℚ => a < b) [0, 1, 1] := by
  refine ⟨?_, by simp, by simp [List.chain'_cons]⟩
  norm_num [get_err_lin_grid, List.getLast?, List.takeWhile]

/-- C3: `window_numtime` does NOT detect and report the no-crossing case:
on the trajectory `[1,1]` (never crossing `target = 5`) the scan loop
finds no sign change, the bracketing variables stay unbound and the code
after the loop raises NameError — a crash (`none` in this model), not an
explicit error result. -/
theorem window_numtime_no_crossing_crashes :
    window_numtime [1, 1] [0, 1] 1 5 = none := by
  norm_num [window_numtime, wnFind]

/-- C4: `evalfunc` and `evalderiv` do NOT report a domain failure for a
query outside the mesh span `[0, 1]`: at `x = 2` and at `x = -1` no
subinterval matches and both silently return the fallback `0`. -/
theorem evalfunc_evalderiv_silent_zero_outside_span :
    evalfunc [0, 1] [0, 1] 1 2 = some 0 ∧
    evalderiv [0, 1] [0, 1] 1 2 = some 0 ∧
    evalfunc [0, 1] [0, 1] 1 (-1) = some 0 ∧
    evalderiv [0, 1] [0, 1] 1 (-1) = some 0 := by
  refine ⟨?_, ?_, ?_, ?_⟩ <;>
    norm_num [evalfunc, evalderiv, matchingIdx, List.getLast?, Finset.filter_singleton]

/-- C5 counterexample: with `Y = [0,1]`, `t = [0,1]`, `q = 1`, at
`x = t[-1] = 1` the claimed value — the derivative of the last
subinterval's polynomial, `∑ⱼ Y[j]·dLagr(0,1,1,j,1) = 1` — differs from
what `evalderiv` returns: its half-open test `t[i] ≤ x < t[i+1]` excludes
the final mesh point, so it returns the fallback `0`. -/
theorem evalderiv_final_node_counterexample :
    evalderiv [0, 1] [0, 1] 1 1 = some 0 ∧
    (∑ j ∈ Finset.range 2, ([0, 1] : List ℚ).getD j 0 * dLagr 0 1 1 j 1) = 1 ∧
    evalderiv [0, 1] [0, 1] 1 1 ≠
      some (∑ j ∈ Finset.range 2, ([0, 1] : List ℚ).getD j 0 * dLagr 0 1 1 j 1) := by
  have h0 : evalderiv [0, 1] [0, 1] 1 1 = some 0 := by
    norm_num [evalderiv, matchingIdx, Finset.filter_singleton]
  have h1 : (∑ j ∈ Finset.range 2, ([0, 1] : List ℚ).getD j 0 * dLagr 0 1 1 j 1) = 1 := by
    norm_num [Finset.sum_range_succ, dLagr, lin_space, finRange2Erase10,
      finRange2Erase01, finRange2Erase0, finRange2Erase1]
  exact ⟨h0, h1, by rw [h0, h1]; exact fun h => by simp at h⟩

/-- C10 counterexample: a first-subinterval crossing does still raise an
out-of-range error when the mesh has only two nodes: with `Y = [5,1]`,
`t = [0,1]`, `target = 2` the straddle is found at `i = 0` but the
right-neighbour read `t[i+2] = t[2]` is out of range, so the call raises
IndexError (`none`) instead of returning `NL = -1`, `tL = t[-1]`. -/
theorem window_numtime_first_interval_short_mesh :
    window_numtime [5, 1] [0, 1] 1 2 = none := by
  norm_num [window_numtime, wnFind, pyIdx, pyTake, Option.bind, List.getLast?]
  simp

/-- C7: for every valid input (positive degree `q`, mesh of `N+1 ≥ 2`
strictly increasing nodes), a successful `solve_lin` run returns a nodal
vector of length `N·q+1` whose index `0` holds the initial value `y0`:
the initialization writes `y0` once at index `0` and each subinterval
iteration `n` contributes exactly the block of global indices
`n·q+1 … (n+1)·q` after it, never touching index `0` again. -/
theorem solve_lin_shape {rule : List (ℚ × ℚ)} {F : ℚ → ℚ} {t : List ℚ}
    {q : ℕ} {y0 : ℚ} {Y : List ℚ} (_hq : 1 ≤ q) (_ht : 2 ≤ t.length)
    (_hmono : List.Chain' (fun a b : ℚ => a < b) t)
    (h : solve_lin rule y0 F t q = some Y) :
    Y.length = (t.length - 1) * q + 1 ∧ Y.head? = some y0 := by
  match t, h with
  | a :: rest, h =>
    simp only [solve_lin, Option.map_eq_some'] at h
    obtain ⟨l, hl, rfl⟩ := h
    refine ⟨?_, rfl⟩
    simp [solveLinAux_length hl]

/-- Witness for C7 at the concrete run `solve_lin_example`. -/
theorem solve_lin_shape_witness :
    solve_lin [((0 : ℚ), (2 : ℚ))] 7 (fun _ => 0) [0, 1] 1 = some [7, 7] ∧
    ([7, 7] : List ℚ).length = (([0, 1] : List ℚ).length - 1) * 1 + 1 ∧
    ([7, 7] : List ℚ).head? = some 7 := by
  have hs := solve_lin_example
  have hr := solve_lin_shape (le_refl 1) (by simp)
    (by simp [List.chain'_cons]) hs
  exact ⟨hs, hr.1, hr.2⟩

/-- C2 (amended): for strictly increasing meshes `ty`, `tphi`, the grid
built by `get_err_lin` agrees with the spec's description — and is a
strictly increasing mesh ending at the adjoint terminal time — PROVIDED
the adjoint final node either equals the forward final node or is both
below it and not itself a forward node.  (The counterexample
`get_err_lin_grid_duplicate_node` shows the unrestricted claim fails:
a forward node equal to `tphi[-1]` is kept and then duplicated; and when
every forward node is below a differing `tphi[-1]` the source leaves the
grid unbound and crashes.) -/
theorem get_err_lin_grid_spec {ty tphi : List ℚ}
    (hty : ty ≠ []) (htphi : tphi ≠ [])
    (hcy : List.Chain' (fun a b : ℚ => a < b) ty)
    (_hcp : List.Chain' (fun a b : ℚ => a < b) tphi)
    (hcase : ty.getLastD 0 = tphi.getLastD 0 ∨
      (tphi.getLastD 0 < ty.getLastD 0 ∧ tphi.getLastD 0 ∉ ty)) :
    get_err_lin_grid ty tphi = some (reconciledGridSpec ty tphi) ∧
    reconciledGridSpec ty tphi ≠ [] ∧
    (reconciledGridSpec ty tphi).getLastD 0 = tphi.getLastD 0 ∧
    List.Chain' (fun a b : ℚ => a < b) (reconciledGridSpec ty tphi) := by
  have hy := getLast?_of_ne_nil hty
  have hp := getLast?_of_ne_nil htphi
  by_cases heq : ty.getLastD 0 = tphi.getLastD 0
  · have hg : get_err_lin_grid ty tphi = some ty := by
      unfold get_err_lin_grid
      rw [hy, hp]
      dsimp only
      rw [if_pos heq]
    have hs : reconciledGridSpec ty tphi = ty := by
      unfold reconciledGridSpec
      rw [if_pos heq]
    rw [hg, hs]
    exact ⟨rfl, hty, heq, hcy⟩
  · obtain ⟨hlt, hnot⟩ := hcase.resolve_left heq
    have hany : ty.any (fun v => decide (tphi.getLastD 0 < v)) = true := by
      rw [List.any_eq_true]
      exact ⟨ty.getLastD 0, mem_of_getLast?_eq hy, by simpa using hlt⟩
    have htw : ty.takeWhile (fun v => decide (v ≤ tphi.getLastD 0)) =
        ty.takeWhile (fun v => decide (v < tphi.getLastD 0)) := by
      refine takeWhile_congr_of_mem (fun v hv => ?_)
      have hne : v ≠ tphi.getLastD 0 := fun h => hnot (h ▸ hv)
      simp only [decide_eq_decide]
      exact ⟨fun h => lt_of_le_of_ne h hne, le_of_lt⟩
    have hs : reconciledGridSpec ty tphi =
        ty.takeWhile (fun v => decide (v < tphi.getLastD 0)) ++ [tphi.getLastD 0] := by
      unfold reconciledGridSpec
      rw [if_neg heq]
    have hg : get_err_lin_grid ty tphi =
        some (ty.takeWhile (fun v => decide (v < tphi.getLastD 0)) ++ [tphi.getLastD 0]) := by
      unfold get_err_lin_grid
      rw [hy, hp]
      dsimp only
      rw [if_neg heq, if_pos hany, htw]
    have hchainTW : List.Chain' (fun a b : ℚ => a < b)
        (ty.takeWhile (fun v => decide (v < tphi.getLastD 0))) := by
      have h2 := hcy
      rw [← List.takeWhile_append_dropWhile
        (fun v => decide (v < tphi.getLastD 0)) ty] at h2
      exact (List.chain'_append.mp h2).1
    rw [hg, hs]
    refine ⟨rfl, by simp, by simp, ?_⟩
    rw [List.chain'_append]
    refine ⟨hchainTW, List.chain'_singleton _, fun x hx y hy2 => ?_⟩
    simp only [List.head?_cons, Option.mem_def, Option.some.injEq] at hy2
    subst hy2
    have hmem : x ∈ ty.takeWhile (fun v => decide (v < tphi.getLastD 0)) :=
      mem_of_getLast?_eq hx
    simpa using List.mem_takeWhile_imp hmem

/-- Witness for C2 at `ty = [0,1,2]`, `tphi = [0,3/2]`: the built grid is
`[0,1,3/2]`. -/
theorem get_err_lin_grid_spec_witness :
    ([0, 1, 2] : List ℚ) ≠ [] ∧ ([0, 3/2] : List ℚ) ≠ [] ∧
    List.Chain' (fun a b : ℚ => a < b) [0, 1, 2] ∧
    List.Chain' (fun a b : ℚ => a < b) [0, (3/2 : ℚ)] ∧
    (((3/2 : ℚ)) < 2 ∧ ((3/2 : ℚ)) ∉ ([0, 1, 2] : List ℚ)) ∧
    get_err_lin_grid [0, 1, 2] [0, 3/2] =
      some (reconciledGridSpec [0, 1, 2] [0, 3/2]) ∧
    (reconciledGridSpec [0, 1, 2] [0, 3/2]).getLastD 0 =
      (([0, 3/2] : List ℚ)).getLastD 0 ∧
    List.Chain' (fun a b : ℚ => a < b) (reconciledGridSpec [0, 1, 2] [0, 3/2]) := by
  have h1 : ([0, 1, 2] : List ℚ) ≠ [] := by simp
  have h2 : ([0, 3/2] : List ℚ) ≠ [] := by simp
  have h3 : List.Chain' (fun a b : ℚ => a < b) [0, 1, 2] := by
    simp [List.chain'_cons]
  have h4 : List.Chain' (fun a b : ℚ => a < b) [0, (3/2 : ℚ)] := by
    simp [List.chain'_cons]
  have h5 : (([0, 1, 2] : List ℚ)).getLastD 0 = (([0, (3/2 : ℚ)] : List ℚ)).getLastD 0 ∨
      ((([0, (3/2 : ℚ)] : List ℚ)).getLastD 0 < (([0, 1, 2] : List ℚ)).getLastD 0 ∧
        (([0, (3/2 : ℚ)] : List ℚ)).getLastD 0 ∉ ([0, 1, 2] : List ℚ)) := by
    right
    constructor
    · norm_num
    · norm_num
  have hr := get_err_lin_grid_spec h1 h2 h3 h4 h5
  refine ⟨h1, h2, h3, h4, ⟨by norm_num, by norm_num⟩, hr.1, ?_, hr.2.2.2⟩
  simpa using hr.2.2.1

/-- C5 (amended): at the final mesh point `x = t[-1]`, `evalderiv` — which
has no special case there — returns `0` (its zero initialization), NOT
the derivative of the last subinterval's polynomial: the half-open
subinterval test `t[i] ≤ x < t[i+1]` fails for every subinterval of a
strictly increasing mesh when `x` is the final node.  (The original
claim's value `∑ⱼ Y[q·(N−1)+j]·dLagr(t[-2], t[-1], q, j, t[-1])` is
refuted by `evalderiv_final_node_counterexample`.) -/
theorem evalderiv_final_node_zero {Y t : List ℚ} {q : ℕ} (ht : t ≠ [])
    (hc : List.Chain' (fun a b : ℚ => a < b) t) :
    evalderiv Y t q (t.getLastD 0) = some 0 := by
  have hidx : matchingIdx t (t.getLastD 0) = ∅ := by
    rw [Finset.eq_empty_iff_forall_not_mem]
    intro i hi
    rw [matchingIdx, Finset.mem_filter, Finset.mem_range] at hi
    obtain ⟨hiL, _, hlt⟩ := hi
    have hlen : 1 ≤ t.length := by
      cases t with
      | nil => exact absurd rfl ht
      | cons a l => simp
    have hi1 : i + 1 < t.length := by omega
    have hle : t.getD (i + 1) 0 ≤ t.getLastD 0 := by
      rw [getLastD_eq_getD_length_sub_one ht]
      rcases Nat.lt_or_ge (i + 1) (t.length - 1) with h1 | h1
      · exact le_of_lt (mesh_getD_lt hc h1 (by omega))
      · have : i + 1 = t.length - 1 := by omega
        rw [this]
    exact absurd hlt (not_lt.mpr hle)
  unfold evalderiv
  rw [hidx]
  simp

/-- Witness for C5's amended theorem at `Y = [0,1]`, `t = [0,1]`, `q = 1`. -/
theorem evalderiv_final_node_zero_witness :
    ([0, 1] : List ℚ) ≠ [] ∧
    List.Chain' (fun a b : ℚ => a < b) [0, 1] ∧
    evalderiv [0, 1] [0, 1] 1 (([0, 1] : List ℚ).getLastD 0) = some 0 := by
  have h1 : ([0, 1] : List ℚ) ≠ [] := by simp
  have h2 : List.Chain' (fun a b : ℚ => a < b) [0, 1] := by
    simp [List.chain'_cons]
  exact ⟨h1, h2, evalderiv_final_node_zero h1 h2⟩

/-- C10 (amended): when the straddle test succeeds at the very first
subinterval (`i = 0`) AND the mesh has at least 3 nodes (so the
right-neighbour read `t[i+2]` is in range), `window_numtime` does not
raise: it returns `NL = -1` and `tL = t[len(t)-1]` — the Python index
`i-1 = -1` wraps to the END of the mesh, so the reported left-neighbour
time is silently later than the crossing, not earlier.  (On a 2-node mesh
the original claim fails: `t[i+2]` raises IndexError — see
`window_numtime_first_interval_short_mesh`.) -/
theorem window_numtime_first_interval_wrap {Y t : List ℚ} {q : ℕ} {target u v : ℚ}
    (hu : Y[0]? = some u) (hv : Y[1]? = some v)
    (hst : (target < u ∧ v < target) ∨ (u < target ∧ target < v))
    (ht : 3 ≤ t.length) :
    (window_numtime Y t q target).map NSQoICtx.NL = some (-1) ∧
    (window_numtime Y t q target).map NSQoICtx.tL = some (t.getLastD 0) := by
  have hfind : wnFind Y q target 0 (t.length - 1) = some 0 := by
    obtain ⟨f, hf⟩ : ∃ f, t.length - 1 = f + 1 := ⟨t.length - 2, by omega⟩
    rw [hf, wnFind]
    simp only [Nat.mul_zero, Nat.zero_add]
    rw [hu, hv]
    dsimp only
    rw [if_pos hst]
  obtain ⟨Y', rfl⟩ : ∃ Y', Y = u :: Y' := by
    cases Y with
    | nil => simp at hu
    | cons a l =>
      have ha : a = u := by simpa using hu
      exact ⟨l, by rw [ha]⟩
  have hp1 : pyIdx t ((0 : ℕ) : ℤ) = some (t.getD 0 0) := by
    unfold pyIdx
    rw [if_pos (by norm_num)]
    simpa using @getElem?_eq_some_getD t 0 (by omega)
  have hp2 : pyIdx t (((0 : ℕ) : ℤ) + 1) = some (t.getD 1 0) := by
    unfold pyIdx
    rw [if_pos (by norm_num)]
    simpa using @getElem?_eq_some_getD t 1 (by omega)
  have hpL : pyIdx t (((0 : ℕ) : ℤ) - 1) = some (t.getLastD 0) := by
    unfold pyIdx
    rw [if_neg (by norm_num), if_pos (by push_cast; omega)]
    have htn : (((t.length : ℤ)) + (((0 : ℕ) : ℤ) - 1)).toNat = t.length - 1 := by omega
    rw [htn, getLastD_eq_getD_length_sub_one (by intro hnil; rw [hnil] at ht; simp at ht)]
    exact getElem?_eq_some_getD (by omega)
  have hpR : pyIdx t (((0 : ℕ) : ℤ) + 2) = some (t.getD 2 0) := by
    unfold pyIdx
    rw [if_pos (by norm_num)]
    simpa using @getElem?_eq_some_getD t 2 (by omega)
  have hT1 : pyTake (u :: Y') ((q : ℤ) * ((0 : ℕ) : ℤ) + 1) = [u] := by
    unfold pyTake
    norm_num
  have hT2ne : pyTake (u :: Y') ((q : ℤ) * ((0 : ℕ) : ℤ) + (q : ℤ) + 1) ≠ [] := by
    unfold pyTake
    rw [if_pos (by positivity)]
    have h2 : ((q : ℤ) * ((0 : ℕ) : ℤ) + (q : ℤ) + 1).toNat = q + 1 := by
      push_cast
      omega
    rw [h2]
    simp
  have hT2 : (pyTake (u :: Y') ((q : ℤ) * ((0 : ℕ) : ℤ) + (q : ℤ) + 1)).getLast? =
      some ((pyTake (u :: Y') ((q : ℤ) * ((0 : ℕ) : ℤ) + (q : ℤ) + 1)).getLastD 0) :=
    getLast?_of_ne_nil hT2ne
  unfold window_numtime
  rw [hfind]
  simp only [Option.pure_def, Option.bind_eq_bind, Option.some_bind]
  rw [hp1, hp2, hpL, hpR]
  simp only [Option.some_bind]
  rw [hT1]
  simp only [List.getLast?_singleton, Option.some_bind]
  rw [hT2]
  simp only [Option.some_bind, Option.map_some']
  norm_num

/-- Witness for C10's amended theorem at `Y = [5,1]`, `t = [0,1,2]`,
`q = 1`, `target = 2`. -/
theorem window_numtime_first_interval_wrap_witness :
    ([5, 1] : List ℚ)[0]? = some 5 ∧ ([5, 1] : List ℚ)[1]? = some 1 ∧
    ((2 : ℚ) < 5 ∧ (1 : ℚ) < 2) ∧ 3 ≤ ([0, 1, 2] : List ℚ).length ∧
    (window_numtime [5, 1] [0, 1, 2] 1 2).map NSQoICtx.NL = some (-1) ∧
    (window_numtime [5, 1] [0, 1, 2] 1 2).map NSQoICtx.tL =
      some (([0, 1, 2] : List ℚ).getLastD 0) := by
  have h1 : ([5, 1] : List ℚ)[0]? = some 5 := rfl
  have h2 : ([5, 1] : List ℚ)[1]? = some 1 := rfl
  have h3 : ((2 : ℚ) < 5 ∧ (1 : ℚ) < 2) ∨ ((5 : ℚ) < 2 ∧ (2 : ℚ) < 1) :=
    Or.inl (by norm_num)
  have h4 : 3 ≤ ([0, 1, 2] : List ℚ).length := by simp
  have hr := @window_numtime_first_interval_wrap [5, 1] [0, 1, 2] 1 2 5 1 h1 h2 h3 h4
  exact ⟨h1, h2, by norm_num, h4, hr.1, hr.2⟩

/-- C8: round-trip — a nodal vector produced by `solve_lin` on mesh `t`
with degree `q`, re-evaluated by `evalfunc` at any mesh node `t[i]`,
reproduces the stored nodal value `Y[q·i]` exactly; at the final mesh
point the stored last value is returned directly by the `x == t[-1]`
branch, with no interior-subinterval fallback. -/
theorem solve_lin_evalfunc_roundtrip {rule : List (ℚ × ℚ)} {F : ℚ → ℚ}
    {t Y : List ℚ} {q : ℕ} {y0 : ℚ} (hq : 1 ≤ q)
    (hc : List.Chain' (fun a b : ℚ => a < b) t)
    (hs : solve_lin rule y0 F t q = some Y)
    {i : ℕ} (hi : i < t.length) :
    evalfunc Y t q (t.getD i 0) = some (Y.getD (q * i) 0) := by
  have hlen := solve_lin_length hs
  have htne : t ≠ [] := by
    intro h
    rw [h] at hi
    simp at hi
  have hYne : Y ≠ [] := by
    intro h
    rw [h] at hlen
    simp at hlen
  by_cases hend : i = t.length - 1
  · have hx : t.getD i 0 = t.getLastD 0 := by
      rw [getLastD_eq_getD_length_sub_one htne, hend]
    unfold evalfunc
    rw [getLast?_of_ne_nil htne]
    dsimp only
    rw [if_pos hx, getLast?_of_ne_nil hYne,
      getLastD_eq_getD_length_sub_one hYne, hlen]
    have : (t.length - 1) * q + 1 - 1 = q * i := by
      rw [hend, Nat.mul_comm]
      omega
    rw [this]
  · have hi1 : i + 1 < t.length := by omega
    have hxne : t.getD i 0 ≠ t.getLastD 0 := by
      rw [getLastD_eq_getD_length_sub_one htne]
      exact ne_of_lt (mesh_getD_lt hc (by omega) (by omega))
    have hab : t.getD i 0 ≠ t.getD (i + 1) 0 :=
      ne_of_lt (mesh_getD_lt hc (by omega) hi1)
    have hbound : q * i + q < Y.length := by
      rw [hlen]
      calc q * i + q = q * (i + 1) := by ring
        _ ≤ q * (t.length - 1) := Nat.mul_le_mul_left q (by omega)
        _ = (t.length - 1) * q := Nat.mul_comm _ _
        _ < (t.length - 1) * q + 1 := Nat.lt_succ_self _
    unfold evalfunc
    rw [getLast?_of_ne_nil htne]
    dsimp only
    rw [if_neg hxne, matchingIdx_node hc hi1]
    rw [if_pos (by intro m hm; rw [Finset.mem_singleton] at hm; rw [hm]; exact hbound)]
    rw [Finset.sum_singleton]
    congr 1
    have hL : ∀ j ∈ Finset.range (q + 1),
        Y.getD (q * i + j) 0 * Lagr (t.getD i 0) (t.getD (i + 1) 0) q j (t.getD i 0) =
          if j = 0 then Y.getD (q * i + j) 0 else 0 := by
      intro j _
      rw [Lagr_node_zero hab hq]
      by_cases hj : j = 0
      · rw [if_pos hj, if_pos hj, mul_one]
      · rw [if_neg hj, if_neg hj, mul_zero]
    rw [Finset.sum_congr rfl hL, Finset.sum_ite_eq' (Finset.range (q + 1)) 0
      (fun j => Y.getD (q * i + j) 0)]
    rw [if_pos (Finset.mem_range.mpr (by omega))]
    rw [Nat.add_zero]

/-- Witness for C8 at the concrete run `solve_lin_example`, evaluated at
the final mesh node `t[1] = 1`. -/
theorem solve_lin_evalfunc_roundtrip_witness :
    (1 : ℕ) ≤ 1 ∧ List.Chain' (fun a b : ℚ => a < b) [0, 1] ∧
    solve_lin [((0 : ℚ), (2 : ℚ))] 7 (fun _ => 0) [0, 1] 1 = some [7, 7] ∧
    1 < ([0, 1] : List ℚ).length ∧
    evalfunc [7, 7] [0, 1] 1 (([0, 1] : List ℚ).getD 1 0) =
      some (([7, 7] : List ℚ).getD (1 * 1) 0) := by
  have h1 : List.Chain' (fun a b : ℚ => a < b) [0, 1] := by
    simp [List.chain'_cons]
  have h2 : 1 < ([0, 1] : List ℚ).length := by simp
  exact ⟨le_refl 1, h1, solve_lin_example, h2,
    solve_lin_evalfunc_roundtrip (le_refl 1) h1 solve_lin_example h2⟩

/-- C6: for the zero coefficient function, a successful `solve_lin` run
returns the constant nodal vector: every entry equals the initial value
`y0`, in exact arithmetic.  The result is independent of the quadrature
rule: the assembled row sums vanish pointwise because the trial basis
derivatives sum to zero, so the constant vector solves each local
system, and `np.linalg.solve`'s solution (unique, since success means
the local matrix was nonsingular) must be it. -/
theorem solve_lin_zero_F_constant {rule : List (ℚ × ℚ)} {F : ℚ → ℚ}
    (hF : ∀ x, F x = 0) {t : List ℚ} {q : ℕ} {y0 : ℚ} {Y : List ℚ}
    (_hq : 1 ≤ q) (_hlen : 2 ≤ t.length)
    (hc : List.Chain' (fun u v : ℚ => u < v) t)
    (h : solve_lin rule y0 F t q = some Y) :
    Y = List.replicate Y.length y0 := by
  match t, h with
  | a :: rest, h =>
    simp only [solve_lin, Option.map_eq_some'] at h
    obtain ⟨l, hl, rfl⟩ := h
    have hlc := solveLinAux_const hF hc hl
    subst hlc
    simp [List.replicate_succ]

/-- Witness for C6 at the concrete run `solve_lin_example`. -/
theorem solve_lin_zero_F_constant_witness :
    (1 : ℕ) ≤ 1 ∧ 2 ≤ ([0, 1] : List ℚ).length ∧
    List.Chain' (fun u v : ℚ => u < v) [0, 1] ∧
    solve_lin [((0 : ℚ), (2 : ℚ))] 7 (fun _ => 0) [0, 1] 1 = some [7, 7] ∧
    ([7, 7] : List ℚ) = List.replicate ([7, 7] : List ℚ).length 7 := by
  have h1 : List.Chain' (fun u v : ℚ => u < v) [0, 1] := by
    simp [List.chain'_cons]
  exact ⟨le_refl 1, by simp, h1, solve_lin_example,
    solve_lin_zero_F_constant (fun _ => rfl) (le_refl 1) (by simp) h1
      solve_lin_example⟩

/-- C9: for every interval `[a,b]`, every reference rule of `order >= 1`
node/weight pairs satisfying the defining Gauss-Legendre property (exact
on `[-1,1]` for monomials of degree `<= 2*order-1` - this is the
documented contract of the external `leggauss` collaborator, which is not
part of this repository), and every polynomial integrand of degree
`<= 2*order-1`, `GaussQuad` - which affinely maps the reference nodes to
`[a,b]`, scales the weights by the half-length and sums `w*f(node)` -
returns the exact analytic integral of the polynomial over `[a,b]`. -/
theorem GaussQuad_exact_on_polynomials {rule : List (ℚ × ℚ)}
    (_horder : 1 ≤ rule.length)
    (hex : ∀ k : ℕ, k ≤ 2 * rule.length - 1 →
      ruleSum rule (fun x => x ^ k) = exactIntegral (-1) 1 (Polynomial.X ^ k))
    (a b : ℚ) (P : Polynomial ℚ) (hP : P.natDegree ≤ 2 * rule.length - 1) :
    GaussQuad a b rule (fun x => P.eval x) = exactIntegral a b P := by
  rw [GaussQuad_eq_ruleSum]
  have hcomp : (fun x => P.eval ((b - a) / 2 * x + (a + b) / 2)) =
      fun x => (P.comp (Polynomial.C ((b - a) / 2) * Polynomial.X +
        Polynomial.C ((a + b) / 2))).eval x := by
    funext x
    rw [Polynomial.eval_comp]
    simp only [Polynomial.eval_add, Polynomial.eval_mul, Polynomial.eval_C,
      Polynomial.eval_X]
  have hdeg : (P.comp (Polynomial.C ((b - a) / 2) * Polynomial.X +
      Polynomial.C ((a + b) / 2))).natDegree ≤ 2 * rule.length - 1 := by
    calc (P.comp (Polynomial.C ((b - a) / 2) * Polynomial.X +
          Polynomial.C ((a + b) / 2))).natDegree
        ≤ P.natDegree * (Polynomial.C ((b - a) / 2) * Polynomial.X +
          Polynomial.C ((a + b) / 2)).natDegree := Polynomial.natDegree_comp_le
      _ ≤ P.natDegree * 1 :=
          Nat.mul_le_mul_left _ Polynomial.natDegree_linear_le
      _ = P.natDegree := Nat.mul_one _
      _ ≤ 2 * rule.length - 1 := hP
  rw [hcomp, ruleSum_exact_poly hex hdeg]
  exact exactIntegral_affine_subst a b P

/-- Witness for C9: the one-point rule `[(0,2)]` (the order-1
Gauss-Legendre rule), integrating `P = X` over `[0,2]` exactly to `2`. -/
theorem GaussQuad_exact_witness :
    1 ≤ ([(((0 : ℚ)), ((2 : ℚ)))]).length ∧
    (Polynomial.X : Polynomial ℚ).natDegree ≤
      2 * ([(((0 : ℚ)), ((2 : ℚ)))]).length - 1 ∧
    GaussQuad 0 2 [(((0 : ℚ)), ((2 : ℚ)))]
      (fun x => (Polynomial.X : Polynomial ℚ).eval x) =
      exactIntegral 0 2 (Polynomial.X : Polynomial ℚ) ∧
    exactIntegral 0 2 (Polynomial.X : Polynomial ℚ) = 2 := by
  have hex : ∀ k : ℕ, k ≤ 2 * ([(((0 : ℚ)), ((2 : ℚ)))]).length - 1 →
      ruleSum [(((0 : ℚ)), ((2 : ℚ)))] (fun x => x ^ k) =
        exactIntegral (-1) 1 (Polynomial.X ^ k) := by
    intro k hk
    rw [exactIntegral_X_pow]
    simp only [List.length_singleton] at hk
    interval_cases k
    · norm_num [ruleSum]
    · norm_num [ruleSum]
  have hdeg : (Polynomial.X : Polynomial ℚ).natDegree ≤
      2 * ([(((0 : ℚ)), ((2 : ℚ)))]).length - 1 := by
    rw [Polynomial.natDegree_X]
    simp
  have hmain := GaussQuad_exact_on_polynomials (by simp) hex 0 2 Polynomial.X hdeg
  have hval : exactIntegral 0 2 (Polynomial.X : Polynomial ℚ) = 2 := by
    rw [show (Polynomial.X : Polynomial ℚ) = Polynomial.X ^ 1 from (pow_one _).symm,
      exactIntegral_X_pow]
    norm_num
  exact ⟨by simp, hdeg, hmain, hval⟩

end ErrEst

